import Mathlib

/-!
Verification of the image-captioning pipeline (files `src/data_processing.py`
and `src/train_functions.py`) against its natural-language specification.

Strings are modelled as `List Char`.  Python's `str.replace` (which replaces
every non-overlapping occurrence, scanning left to right) is modelled by
`pythonReplace`.  Python dictionaries are modelled as association lists with
insertion-order semantics (`dget`, `dinsert`).  All definitions are
executable so that concrete runs can be settled by `decide` or `rfl`.
-/

set_option maxHeartbeats 1000000

namespace Captioning

/-- The ten punctuation marks recognised by `tokenize` in `data_processing.py`. -/
inductive Punct where
  | period
  | comma
  | quot
  | semicolon
  | exclam
  | question
  | lparen
  | rparen
  | hyphens
  | colon
  deriving DecidableEq, Fintype

/-- The literal punctuation text replaced by `tokenize` (first argument of each
`text.replace(...)` call in the source). -/
def mark : Punct → List Char
  | .period => ['.']
  | .comma => [',']
  | .quot => ['"']
  | .semicolon => [';']
  | .exclam => ['!']
  | .question => ['?']
  | .lparen => ['(']
  | .rparen => [')']
  | .hyphens => ['-', '-']
  | .colon => [':']

/-- The sentinel tag substituted for a punctuation mark, spaces included
(second argument of each `text.replace(...)` call in the source). -/
def tag : Punct → List Char
  | .period => " <PERIOD> ".toList
  | .comma => " <COMMA> ".toList
  | .quot => " <QUOTATION_MARK> ".toList
  | .semicolon => " <SEMICOLON> ".toList
  | .exclam => " <EXCLAMATION_MARK> ".toList
  | .question => " <QUESTION_MARK> ".toList
  | .lparen => " <LEFT_PAREN> ".toList
  | .rparen => " <RIGHT_PAREN> ".toList
  | .hyphens => " <HYPHENS> ".toList
  | .colon => " <COLON> ".toList

/-- Fuel-indexed worker for `pythonReplace`; the fuel only serves to make the
recursion structural (it is always at least the length of the string). -/
def pythonReplaceAux (pat rep : List Char) : Nat → List Char → List Char
  | _, [] => []
  | 0, s => s
  | fuel + 1, c :: cs =>
    if pat.isPrefixOf (c :: cs) then
      rep ++ pythonReplaceAux pat rep fuel ((c :: cs).drop pat.length)
    else
      c :: pythonReplaceAux pat rep fuel cs

/-- Python's `s.replace(pat, rep)` for a non-empty pattern: every
non-overlapping occurrence is replaced, scanning left to right. -/
def pythonReplace (pat rep s : List Char) : List Char :=
  pythonReplaceAux pat rep s.length s

/-- Source function `tokenize` from `data_processing.py`: the eleven `replace` calls in source
order (the `?` replacement appears twice in the source), innermost first. -/
def tokenize (text : List Char) : List Char :=
  pythonReplace (mark .colon) (tag .colon)
    (pythonReplace (mark .question) (tag .question)
      (pythonReplace (mark .hyphens) (tag .hyphens)
        (pythonReplace (mark .rparen) (tag .rparen)
          (pythonReplace (mark .lparen) (tag .lparen)
            (pythonReplace (mark .question) (tag .question)
              (pythonReplace (mark .exclam) (tag .exclam)
                (pythonReplace (mark .semicolon) (tag .semicolon)
                  (pythonReplace (mark .quot) (tag .quot)
                    (pythonReplace (mark .comma) (tag .comma)
                      (pythonReplace (mark .period) (tag .period) text))))))))))

/-- Source function `untokenize` from `data_processing.py`: the inverse `replace` calls in
source order (again with the `?` replacement duplicated), innermost first. -/
def untokenize (text : List Char) : List Char :=
  pythonReplace (tag .colon) (mark .colon)
    (pythonReplace (tag .question) (mark .question)
      (pythonReplace (tag .hyphens) (mark .hyphens)
        (pythonReplace (tag .rparen) (mark .rparen)
          (pythonReplace (tag .lparen) (mark .lparen)
            (pythonReplace (tag .question) (mark .question)
              (pythonReplace (tag .exclam) (mark .exclam)
                (pythonReplace (tag .semicolon) (mark .semicolon)
                  (pythonReplace (tag .quot) (mark .quot)
                    (pythonReplace (tag .comma) (mark .comma)
                      (pythonReplace (tag .period) (mark .period) text))))))))))

example : tokenize "a dog!".toList = "a dog <EXCLAMATION_MARK> ".toList := by decide

example : untokenize (tokenize "a, (big) dog -- runs: fast?".toList)
    = "a, (big) dog -- runs: fast?".toList := by decide

/-! Characterising lemmas for `pythonReplace`.  The fuel argument of
`pythonReplaceAux` is irrelevant as long as it dominates the string length. -/

lemma pythonReplaceAux_congr (pat rep : List Char) (hp : pat ≠ []) :
    ∀ fuel₁ : Nat, ∀ fuel₂ : Nat, ∀ s : List Char,
      s.length ≤ fuel₁ → s.length ≤ fuel₂ →
      pythonReplaceAux pat rep fuel₁ s = pythonReplaceAux pat rep fuel₂ s := by
  intro fuel₁
  induction fuel₁ with
  | zero =>
    intro fuel₂ s h₁ _
    have hs : s = [] := List.length_eq_zero.mp (Nat.le_zero.mp h₁)
    subst hs
    cases fuel₂ <;> rfl
  | succ f ih =>
    intro fuel₂ s h₁ h₂
    cases s with
    | nil => cases fuel₂ <;> rfl
    | cons c cs =>
      cases fuel₂ with
      | zero => exact absurd h₂ (by simp)
      | succ f₂ =>
        have hpat : 1 ≤ pat.length := List.length_pos.mpr hp
        have hdrop := List.length_drop pat.length (c :: cs)
        simp only [pythonReplaceAux]
        by_cases hm : pat.isPrefixOf (c :: cs) = true
        · rw [if_pos hm, if_pos hm]
          have hlen : ((c :: cs).drop pat.length).length ≤ f := by
            simp only [List.length_cons] at hdrop h₁
            omega
          have hlen₂ : ((c :: cs).drop pat.length).length ≤ f₂ := by
            simp only [List.length_cons] at hdrop h₂
            omega
          rw [ih f₂ _ hlen hlen₂]
        · rw [if_neg hm, if_neg hm]
          have hlen : cs.length ≤ f := by simp at h₁; omega
          have hlen₂ : cs.length ≤ f₂ := by simp at h₂; omega
          rw [ih f₂ _ hlen hlen₂]

lemma pythonReplace_nil (pat rep : List Char) : pythonReplace pat rep [] = [] := rfl

lemma pythonReplace_cons_match (pat rep : List Char) (c : Char) (cs : List Char)
    (hp : pat ≠ []) (h : pat.isPrefixOf (c :: cs) = true) :
    pythonReplace pat rep (c :: cs)
      = rep ++ pythonReplace pat rep ((c :: cs).drop pat.length) := by
  have hpat : 1 ≤ pat.length := List.length_pos.mpr hp
  have hdrop := List.length_drop pat.length (c :: cs)
  show pythonReplaceAux pat rep (cs.length + 1) (c :: cs) = _
  simp only [pythonReplaceAux]
  rw [if_pos h]
  congr 1
  exact pythonReplaceAux_congr pat rep hp _ _ _
    (by simp only [List.length_cons] at hdrop; omega)
    (Nat.le_refl _)

lemma pythonReplace_cons_nomatch (pat rep : List Char) (c : Char) (cs : List Char)
    (h : pat.isPrefixOf (c :: cs) = false) :
    pythonReplace pat rep (c :: cs) = c :: pythonReplace pat rep cs := by
  have hp : pat ≠ [] := by
    intro hnil
    subst hnil
    simp [List.isPrefixOf] at h
  show pythonReplaceAux pat rep (cs.length + 1) (c :: cs) = _
  simp only [pythonReplaceAux]
  rw [if_neg (by simp [h])]
  congr 1

/-! Small facts about `List.isPrefixOf`. -/

lemma isPrefixOf_eq_false_of_head_ne {c : Char} {pt l : List Char}
    (h : l.head? ≠ some c) : (c :: pt).isPrefixOf l = false := by
  cases l with
  | nil => rfl
  | cons d l' =>
    simp only [List.head?] at h
    have hne : (c == d) = false := by
      simp only [beq_eq_false_iff_ne, ne_eq]
      intro hcd
      exact h (by rw [hcd])
    simp [List.isPrefixOf, hne]

lemma isPrefixOf_append_self (l t : List Char) : l.isPrefixOf (l ++ t) = true := by
  induction l with
  | nil => simp [List.isPrefixOf]
  | cons c cs ih => simp [List.isPrefixOf, ih]

lemma head?_mem {l : List Char} {c : Char} (h : l.head? = some c) : c ∈ l := by
  cases l with
  | nil => simp at h
  | cons d l' =>
    simp only [List.head?, Option.some.injEq] at h
    simp [← h]

/-- If the pattern's first character occurs nowhere in `s`, scanning `s ++ rest`
replaces nothing inside `s`. -/
lemma pythonReplace_append_skip (pat rep : List Char) (hp : pat ≠ [])
    (s rest : List Char) (h : ∀ c ∈ s, pat.head? ≠ some c) :
    pythonReplace pat rep (s ++ rest) = s ++ pythonReplace pat rep rest := by
  induction s with
  | nil => rfl
  | cons c s' ih =>
    have hne : pat.isPrefixOf (c :: (s' ++ rest)) = false := by
      cases pat with
      | nil => exact absurd rfl hp
      | cons p0 pt =>
        have : p0 ≠ c := by
          intro hpc
          exact h c (by simp) (by simp [List.head?, hpc])
        simp [List.isPrefixOf, beq_eq_false_iff_ne, this]
    rw [List.cons_append, pythonReplace_cons_nomatch pat rep _ _ hne,
      ih (fun c hc => h c (by simp [hc]))]
    rfl

/-! The domain of the round-trip claim: strings built from plain words
interleaved with the ten recognised punctuation marks. -/

/-- A plain character: letter, digit or space — in particular none of the
ten punctuation characters, no hyphen and no angle bracket. -/
def plainChar (c : Char) : Bool :=
  c.isAlpha || c.isDigit || c == ' '

/-- One building block of a claim-domain string. -/
inductive Item where
  | word : List Char → Item
  | punc : Punct → Item

/-- All words of the item list consist of plain characters only. -/
def itemsPlain (items : List Item) : Bool :=
  items.all fun i =>
    match i with
    | .word w => w.all plainChar
    | .punc _ => true

/-- Concatenate the items, rendering each punctuation item through `f`. -/
def renderWith (f : Punct → List Char) : List Item → List Char
  | [] => []
  | .word w :: rest => w ++ renderWith f rest
  | .punc p :: rest => f p ++ renderWith f rest

/-- The original string: punctuation rendered as the raw marks. -/
def render (items : List Item) : List Char :=
  renderWith mark items

/-- Mid-`tokenize` rendering: marks already processed (`P`) appear as tags. -/
def tokRender (P : Punct → Bool) : Punct → List Char :=
  fun q => if P q then tag q else mark q

/-- Mid-`untokenize` rendering: tags already processed (`P`) appear as marks. -/
def untokRender (P : Punct → Bool) : Punct → List Char :=
  fun q => if P q then mark q else tag q

/-! Concrete facts about the marks and tags, all settled by `decide`. -/

lemma mark_ne_nil : ∀ p : Punct, mark p ≠ [] := by decide

lemma tag_ne_nil : ∀ p : Punct, tag p ≠ [] := by decide

lemma mark_all_not_plain : ∀ p : Punct, (mark p).all (fun c => !plainChar c) = true := by
  decide

lemma markHead_not_in_mark :
    ∀ p q : Punct, p ≠ q → ∀ c ∈ mark q, (mark p).head? ≠ some c := by decide

lemma markHead_not_in_tag :
    ∀ p q : Punct, ∀ c ∈ tag q, (mark p).head? ≠ some c := by decide

lemma tagHead_not_in_mark :
    ∀ p q : Punct, ∀ c ∈ mark q, (tag p).head? ≠ some c := by decide

lemma markHead_ne_lt : ∀ q : Punct, (mark q).head? ≠ some '<' := by decide

lemma tagHead_ne_lt : ∀ q : Punct, (tag q).head? ≠ some '<' := by decide

lemma plainChar_ne_lt {c : Char} (h : plainChar c = true) : c ≠ '<' := by
  intro hc
  subst hc
  simp [plainChar] at h

@[simp] lemma renderWith_nil (f : Punct → List Char) : renderWith f [] = [] := rfl

@[simp] lemma renderWith_word (f : Punct → List Char) (w : List Char) (rest : List Item) :
    renderWith f (.word w :: rest) = w ++ renderWith f rest := rfl

@[simp] lemma renderWith_punc (f : Punct → List Char) (q : Punct) (rest : List Item) :
    renderWith f (.punc q :: rest) = f q ++ renderWith f rest := rfl

/-- Scanning a string that starts with a verbatim copy of the pattern replaces
that copy and continues after it. -/
lemma pythonReplace_exact (pat rep rest : List Char) (hp : pat ≠ []) :
    pythonReplace pat rep (pat ++ rest) = rep ++ pythonReplace pat rep rest := by
  cases hpat : pat with
  | nil => exact absurd hpat hp
  | cons pc pcs =>
    rw [← hpat, show pat ++ rest = pc :: (pcs ++ rest) by rw [hpat]; rfl]
    rw [pythonReplace_cons_match _ _ _ _ hp
      (by rw [show pc :: (pcs ++ rest) = pat ++ rest by rw [hpat]; rfl]
          exact isPrefixOf_append_self _ _)]
    congr 1
    rw [show pc :: (pcs ++ rest) = pat ++ rest by rw [hpat]; rfl, List.drop_left]

/-- The step lemma for the `tokenize` phase: replacing mark `p` by tag `p` in a
partially tokenized rendering tokenizes exactly the `p` items. -/
lemma tokenize_step (p : Punct) (P : Punct → Bool) :
    ∀ items : List Item, itemsPlain items = true →
      pythonReplace (mark p) (tag p) (renderWith (tokRender P) items)
        = renderWith (tokRender (fun q => q == p || P q)) items := by
  intro items hplain
  induction items with
  | nil => exact pythonReplace_nil _ _
  | cons i rest ih =>
    have hrest : itemsPlain rest = true := by
      simp only [itemsPlain, List.all_cons, Bool.and_eq_true] at hplain
      exact hplain.2
    cases i with
    | word w =>
      have hw : w.all plainChar = true := by
        simp only [itemsPlain, List.all_cons, Bool.and_eq_true] at hplain
        exact hplain.1
      have hskip : ∀ c ∈ w, (mark p).head? ≠ some c := by
        intro c hc hhead
        have hcp : plainChar c = true := List.all_eq_true.mp hw c hc
        have := List.all_eq_true.mp (mark_all_not_plain p) c (head?_mem hhead)
        simp [hcp] at this
      simp only [renderWith_word]
      rw [pythonReplace_append_skip _ _ (mark_ne_nil p) _ _ hskip, ih hrest]
    | punc q =>
      simp only [renderWith_punc]
      by_cases hPq : P q = true
      · have h1 : tokRender P q = tag q := by simp [tokRender, hPq]
        have h2 : tokRender (fun q' => q' == p || P q') q = tag q := by
          simp [tokRender, hPq]
        rw [h1, h2, pythonReplace_append_skip _ _ (mark_ne_nil p) _ _
          (markHead_not_in_tag p q), ih hrest]
      · by_cases hqp : q = p
        · have h1 : tokRender P q = mark p := by
            rw [hqp] at hPq ⊢
            simp [tokRender, hPq]
          have h2 : tokRender (fun q' => q' == p || P q') q = tag p := by
            rw [hqp]
            simp [tokRender]
          rw [h1, h2, pythonReplace_exact _ _ _ (mark_ne_nil p), ih hrest]
        · have h1 : tokRender P q = mark q := by simp [tokRender, hPq]
          have h2 : tokRender (fun q' => q' == p || P q') q = mark q := by
            have hb : (q == p) = false := by simp [hqp]
            simp [tokRender, hb, hPq]
          rw [h1, h2, pythonReplace_append_skip _ _ (mark_ne_nil p) _ _
            (markHead_not_in_mark p q (fun h => hqp h.symm)), ih hrest]

/-! Machinery for the `untokenize` phase.  Tag patterns start with a space, so
ruling out spurious matches needs one character of lookahead: the character
after any candidate position must be `<`, and `<` only ever occurs as the
second character of a rendered tag. -/

/-- There is a position below both lengths where `pat` and `s` differ. -/
def mismatchIdx (pat s : List Char) : Bool :=
  (List.range s.length).any fun i =>
    decide (i < pat.length) && (pat.get? i != s.get? i)

lemma isPrefixOf_get? :
    ∀ pat l : List Char, pat.isPrefixOf l = true →
      ∀ i, i < pat.length → pat.get? i = l.get? i := by
  intro pat
  induction pat with
  | nil => intro l _ i hi; simp at hi
  | cons p0 pt ih =>
    intro l h i hi
    cases l with
    | nil => simp [List.isPrefixOf] at h
    | cons c l' =>
      simp only [List.isPrefixOf, Bool.and_eq_true, beq_iff_eq] at h
      cases i with
      | zero => simp [h.1]
      | succ j =>
        simp only [List.get?]
        exact ih l' h.2 j (by simp at hi; omega)

lemma isPrefixOf_append_eq_false_of_mismatchIdx (pat s rest : List Char)
    (h : mismatchIdx pat s = true) : pat.isPrefixOf (s ++ rest) = false := by
  obtain ⟨i, hmem, hcond⟩ := List.any_eq_true.mp h
  have hi : i < s.length := List.mem_range.mp hmem
  simp only [Bool.and_eq_true, decide_eq_true_eq, bne_iff_ne, ne_eq] at hcond
  obtain ⟨hip, hne⟩ := hcond
  by_contra hpre
  have hpre' : pat.isPrefixOf (s ++ rest) = true := by
    cases hb : pat.isPrefixOf (s ++ rest) with
    | false => exact absurd hb hpre
    | true => rfl
  have := isPrefixOf_get? pat (s ++ rest) hpre' i hip
  rw [List.get?_append hi] at this
  exact hne this

/-- The middle of a tag: everything strictly between the two framing spaces. -/
def tagMid (q : Punct) : List Char :=
  ((tag q).drop 1).dropLast

lemma tag_decomp : ∀ q : Punct, tag q = ' ' :: (tagMid q ++ [' ']) := by decide

lemma tag_shape : ∀ p : Punct, tag p = ' ' :: '<' :: ((tag p).drop 2) := by decide

lemma tag_pairwise_mismatch :
    ∀ p q : Punct, p = q ∨ mismatchIdx (tag p) (tag q) = true := by decide

lemma tagHead_not_in_tagMid :
    ∀ p q : Punct, ∀ c ∈ tagMid q, (tag p).head? ≠ some c := by decide

lemma isPrefixOf_space_eq_false (t l : List Char) (h : l.head? ≠ some '<') :
    (' ' :: '<' :: t).isPrefixOf (' ' :: l) = false := by
  have h2 : ('<' :: t).isPrefixOf l = false := isPrefixOf_eq_false_of_head_ne h
  simp [List.isPrefixOf, h2]

/-- Scanning a plain word during `untokenize` replaces nothing inside the word,
because the character after any candidate start would have to be `<`. -/
lemma pythonReplace_plain_skip (t rep : List Char) :
    ∀ w rest : List Char, w.all plainChar = true → rest.head? ≠ some '<' →
      pythonReplace (' ' :: '<' :: t) rep (w ++ rest)
        = w ++ pythonReplace (' ' :: '<' :: t) rep rest := by
  intro w
  induction w with
  | nil => intro rest _ _; rfl
  | cons c w' ih =>
    intro rest hw hrest
    have hw' : w'.all plainChar = true := by
      simp only [List.all_cons, Bool.and_eq_true] at hw
      exact hw.2
    have htail : ('<' :: t).isPrefixOf (w' ++ rest) = false := by
      apply isPrefixOf_eq_false_of_head_ne
      cases w' with
      | nil => simpa using hrest
      | cons d w'' =>
        have hd : plainChar d = true := by
          simp only [List.all_cons, Bool.and_eq_true] at hw
          exact hw.2.1
        simp only [List.cons_append, List.head?, ne_eq, Option.some.injEq]
        intro hdlt
        exact plainChar_ne_lt hd hdlt
    have hnomatch : (' ' :: '<' :: t).isPrefixOf (c :: (w' ++ rest)) = false := by
      simp [List.isPrefixOf, htail]
    rw [List.cons_append, pythonReplace_cons_nomatch _ _ _ _ hnomatch, ih rest hw' hrest]
    rfl

/-- Scanning a foreign tag during `untokenize` replaces nothing inside it. -/
lemma pythonReplace_tag_skip (p q : Punct) (hqp : q ≠ p) (rest : List Char)
    (hrest : rest.head? ≠ some '<') :
    pythonReplace (tag p) (mark p) (tag q ++ rest)
      = tag q ++ pythonReplace (tag p) (mark p) rest := by
  have hsplit : tag q ++ rest = ' ' :: (tagMid q ++ (' ' :: rest)) := by
    rw [tag_decomp q]
    simp
  have h0 : (tag p).isPrefixOf (tag q ++ rest) = false := by
    rcases tag_pairwise_mismatch p q with h | h
    · exact absurd h.symm hqp
    · exact isPrefixOf_append_eq_false_of_mismatchIdx _ _ _ h
  rw [hsplit] at h0 ⊢
  rw [pythonReplace_cons_nomatch _ _ _ _ h0]
  rw [pythonReplace_append_skip _ _ (tag_ne_nil p) _ _ (tagHead_not_in_tagMid p q)]
  have hlast : pythonReplace (tag p) (mark p) (' ' :: rest)
      = ' ' :: pythonReplace (tag p) (mark p) rest := by
    apply pythonReplace_cons_nomatch
    rw [tag_shape p]
    exact isPrefixOf_space_eq_false _ _ hrest
  rw [hlast, tag_decomp q]
  simp

/-- The first character of a partially untokenized rendering is never `<`. -/
lemma renderWith_untok_head (P : Punct → Bool) :
    ∀ items : List Item, itemsPlain items = true →
      (renderWith (untokRender P) items).head? ≠ some '<' := by
  intro items hplain
  induction items with
  | nil => simp
  | cons i rest ih =>
    have hrest : itemsPlain rest = true := by
      simp only [itemsPlain, List.all_cons, Bool.and_eq_true] at hplain
      exact hplain.2
    cases i with
    | word w =>
      cases w with
      | nil => simpa using ih hrest
      | cons c w' =>
        have hc : plainChar c = true := by
          simp only [itemsPlain, List.all_cons, Bool.and_eq_true] at hplain
          exact hplain.1.1
        simp only [renderWith_word, List.cons_append, List.head?, ne_eq, Option.some.injEq]
        intro hlt
        exact plainChar_ne_lt hc hlt
    | punc q =>
      simp only [renderWith_punc]
      by_cases hPq : P q = true
      · have h1 : untokRender P q = mark q := by simp [untokRender, hPq]
        rw [h1]
        cases hmq : mark q with
        | nil => exact absurd hmq (mark_ne_nil q)
        | cons mc mcs =>
          have := markHead_ne_lt q
          rw [hmq] at this
          simpa using this
      · have h1 : untokRender P q = tag q := by simp [untokRender, hPq]
        rw [h1]
        cases htq : tag q with
        | nil => exact absurd htq (tag_ne_nil q)
        | cons tc tcs =>
          have := tagHead_ne_lt q
          rw [htq] at this
          simpa using this

/-- The step lemma for the `untokenize` phase: replacing tag `p` by mark `p` in
a partially untokenized rendering untokenizes exactly the `p` items. -/
lemma untokenize_step (p : Punct) (P : Punct → Bool) :
    ∀ items : List Item, itemsPlain items = true →
      pythonReplace (tag p) (mark p) (renderWith (untokRender P) items)
        = renderWith (untokRender (fun q => q == p || P q)) items := by
  intro items hplain
  induction items with
  | nil => exact pythonReplace_nil _ _
  | cons i rest ih =>
    have hrest : itemsPlain rest = true := by
      simp only [itemsPlain, List.all_cons, Bool.and_eq_true] at hplain
      exact hplain.2
    have hresthead := renderWith_untok_head P rest hrest
    cases i with
    | word w =>
      have hw : w.all plainChar = true := by
        simp only [itemsPlain, List.all_cons, Bool.and_eq_true] at hplain
        exact hplain.1
      simp only [renderWith_word]
      rw [tag_shape p, pythonReplace_plain_skip _ _ _ _ hw hresthead, ← tag_shape p,
        ih hrest]
    | punc q =>
      simp only [renderWith_punc]
      by_cases hPq : P q = true
      · have h1 : untokRender P q = mark q := by simp [untokRender, hPq]
        have h2 : untokRender (fun q' => q' == p || P q') q = mark q := by
          simp [untokRender, hPq]
        rw [h1, h2, pythonReplace_append_skip _ _ (tag_ne_nil p) _ _
          (tagHead_not_in_mark p q), ih hrest]
      · by_cases hqp : q = p
        · have h1 : untokRender P q = tag p := by
            rw [hqp] at hPq ⊢
            simp [untokRender, hPq]
          have h2 : untokRender (fun q' => q' == p || P q') q = mark p := by
            rw [hqp]
            simp [untokRender]
          rw [h1, h2, pythonReplace_exact _ _ _ (tag_ne_nil p), ih hrest]
        · have h1 : untokRender P q = tag q := by simp [untokRender, hPq]
          have h2 : untokRender (fun q' => q' == p || P q') q = tag q := by
            have hb : (q == p) = false := by simp [hqp]
            simp [untokRender, hb, hPq]
          rw [h1, h2, pythonReplace_tag_skip p q hqp _ hresthead, ih hrest]

lemma renderWith_congr (f g : Punct → List Char) (h : ∀ q, f q = g q) :
    ∀ items : List Item, renderWith f items = renderWith g items := by
  intro items
  induction items with
  | nil => rfl
  | cons i rest ih =>
    cases i with
    | word w => simp [ih]
    | punc q => simp [h q, ih]

lemma tokenize_render (items : List Item) (h : itemsPlain items = true) :
    tokenize (render items) = renderWith tag items := by
  have h0 : render items = renderWith (tokRender fun _ => false) items :=
    renderWith_congr _ _ (fun q => by simp [tokRender]) items
  simp only [tokenize]
  rw [h0]
  rw [tokenize_step .period _ items h]
  rw [tokenize_step .comma _ items h]
  rw [tokenize_step .quot _ items h]
  rw [tokenize_step .semicolon _ items h]
  rw [tokenize_step .exclam _ items h]
  rw [tokenize_step .question _ items h]
  rw [tokenize_step .lparen _ items h]
  rw [tokenize_step .rparen _ items h]
  rw [tokenize_step .hyphens _ items h]
  rw [tokenize_step .question _ items h]
  rw [tokenize_step .colon _ items h]
  exact renderWith_congr _ _ (by decide) items

lemma untokenize_renderTag (items : List Item) (h : itemsPlain items = true) :
    untokenize (renderWith tag items) = render items := by
  have h0 : renderWith tag items = renderWith (untokRender fun _ => false) items :=
    renderWith_congr _ _ (fun q => by simp [untokRender]) items
  simp only [untokenize]
  rw [h0]
  rw [untokenize_step .period _ items h]
  rw [untokenize_step .comma _ items h]
  rw [untokenize_step .quot _ items h]
  rw [untokenize_step .semicolon _ items h]
  rw [untokenize_step .exclam _ items h]
  rw [untokenize_step .question _ items h]
  rw [untokenize_step .lparen _ items h]
  rw [untokenize_step .rparen _ items h]
  rw [untokenize_step .hyphens _ items h]
  rw [untokenize_step .question _ items h]
  rw [untokenize_step .colon _ items h]
  exact renderWith_congr _ _ (by decide) items

/-- C3: for every string built only from plain words interleaved with the ten
recognised punctuation marks, `untokenize` inverts `tokenize`. -/
theorem untokenize_tokenize_roundtrip (items : List Item)
    (h : itemsPlain items = true) :
    untokenize (tokenize (render items)) = render items := by
  rw [tokenize_render items h, untokenize_renderTag items h]

/-- Witness for C3 at the concrete string `"a cat! (dog) -- no?"`. -/
theorem untokenize_tokenize_roundtrip_witness :
    itemsPlain [Item.word "a cat".toList, Item.punc .exclam, Item.word " ".toList,
        Item.punc .lparen, Item.word "dog".toList, Item.punc .rparen,
        Item.word " ".toList, Item.punc .hyphens, Item.word " no".toList,
        Item.punc .question] = true ∧
      untokenize (tokenize (render [Item.word "a cat".toList, Item.punc .exclam,
          Item.word " ".toList, Item.punc .lparen, Item.word "dog".toList,
          Item.punc .rparen, Item.word " ".toList, Item.punc .hyphens,
          Item.word " no".toList, Item.punc .question]))
        = render [Item.word "a cat".toList, Item.punc .exclam, Item.word " ".toList,
            Item.punc .lparen, Item.word "dog".toList, Item.punc .rparen,
            Item.word " ".toList, Item.punc .hyphens, Item.word " no".toList,
            Item.punc .question] :=
  ⟨by decide, untokenize_tokenize_roundtrip _ (by decide)⟩

/-! The vocabulary builder `create_lookup_tables` from `data_processing.py`.

Python dictionaries are modelled as association lists with distinct keys kept
in insertion order: `dget` is subscript access, `dinsert` is subscript
assignment (overwriting keeps the key's position, a fresh key is appended).
`Counter(words)` iterates its keys in first-occurrence order (`dedupFirst`)
with `countL` as multiplicity, and `sorted(..., reverse=True)` is a stable
descending sort (`sortDescBy`, an insertion sort that keeps equal keys in
their original relative order, which is exactly what Python's stable sort
produces). -/

/-- Number of occurrences of `x` in `l` (`Counter(words)[x]`). -/
def countL (x : String) : List String → Nat
  | [] => 0
  | y :: l => (if y = x then 1 else 0) + countL x l

/-- The distinct elements of the list in first-occurrence order, skipping
those already in `seen` (`list(Counter(words))` for `seen = []`). -/
def dedupFirst (seen : List String) : List String → List String
  | [] => []
  | w :: ws => if w ∈ seen then dedupFirst seen ws else w :: dedupFirst (w :: seen) ws

/-- Insert `x` into a descending-sorted list, after all strictly greater keys
and before all keys less than or equal to it. -/
def insertDesc (key : String → Nat) (x : String) : List String → List String
  | [] => [x]
  | y :: ys => if key x < key y then y :: insertDesc key x ys else x :: y :: ys

/-- Stable sort by strictly descending key: equal keys keep the relative order
they had in the input (as Python's `sorted(..., reverse=True)` guarantees). -/
def sortDescBy (key : String → Nat) : List String → List String
  | [] => []
  | x :: xs => insertDesc key x (sortDescBy key xs)

/-- Python `enumerate`: pair every element with its position, starting at `n`. -/
def enumFromL {α : Type} (n : Nat) : List α → List (Nat × α)
  | [] => []
  | a :: l => (n, a) :: enumFromL (n + 1) l

/-- Dictionary subscript read: the value stored at key `k`, if any. -/
def dget {K V : Type} [DecidableEq K] : List (K × V) → K → Option V
  | [], _ => none
  | (k2, v) :: rest, k => if k2 = k then some v else dget rest k

/-- Dictionary subscript assignment `d[k] = v`: an existing key keeps its
position and gets the new value, a fresh key is appended at the end. -/
def dinsert {K V : Type} [DecidableEq K] (d : List (K × V)) (k : K) (v : V) :
    List (K × V) :=
  if d.any (fun kv => decide (kv.1 = k)) then
    d.map (fun kv => if kv.1 = k then (k, v) else kv)
  else
    d ++ [(k, v)]

/-- Source function `create_lookup_tables` from `data_processing.py`: count the words, sort the
distinct words by descending frequency, number them, and finally store the
`<PAD>` entry on both sides (`vocab_to_int['<PAD>'] = len(vocab_to_int)` and
`int_to_vocab[len(int_to_vocab)] = '<PAD>'`, the lengths being read before
each assignment). -/
def create_lookup_tables (words : List String) :
    List (String × Nat) × List (Nat × String) :=
  let sorted_vocab := sortDescBy (fun w => countL w words) (dedupFirst [] words)
  let int_to_vocab := enumFromL 0 sorted_vocab
  let vocab_to_int := int_to_vocab.map (fun p => (p.2, p.1))
  (dinsert vocab_to_int "<PAD>" vocab_to_int.length,
    dinsert int_to_vocab int_to_vocab.length "<PAD>")

example :
    create_lookup_tables ["b", "a", "a"]
      = ([("a", 0), ("b", 1), ("<PAD>", 2)], [(0, "a"), (1, "b"), (2, "<PAD>")]) := by
  decide

example :
    create_lookup_tables ["<PAD>"] = ([("<PAD>", 1)], [(0, "<PAD>"), (1, "<PAD>")]) := by
  decide

/-- The sorted distinct vocabulary used inside `create_lookup_tables`. -/
def sortedVocab (words : List String) : List String :=
  sortDescBy (fun w => countL w words) (dedupFirst [] words)

lemma create_lookup_tables_def (words : List String) :
    create_lookup_tables words
      = (dinsert ((enumFromL 0 (sortedVocab words)).map (fun p => (p.2, p.1)))
            "<PAD>" ((enumFromL 0 (sortedVocab words)).map (fun p => (p.2, p.1))).length,
          dinsert (enumFromL 0 (sortedVocab words))
            (enumFromL 0 (sortedVocab words)).length "<PAD>") := rfl

/-! Membership, length, distinctness and order lemmas for the pieces. -/

lemma mem_of_mem_dedupFirst :
    ∀ (l seen : List String) (x : String), x ∈ dedupFirst seen l → x ∈ l := by
  intro l
  induction l with
  | nil => intro seen x h; simp [dedupFirst] at h
  | cons w ws ih =>
    intro seen x h
    simp only [dedupFirst] at h
    by_cases hw : w ∈ seen
    · rw [if_pos hw] at h
      exact List.mem_cons_of_mem _ (ih seen x h)
    · rw [if_neg hw] at h
      rcases List.mem_cons.mp h with h1 | h2
      · exact h1 ▸ List.mem_cons_self _ _
      · exact List.mem_cons_of_mem _ (ih _ x h2)

lemma not_mem_seen_of_mem_dedupFirst :
    ∀ (l seen : List String) (x : String), x ∈ dedupFirst seen l → x ∉ seen := by
  intro l
  induction l with
  | nil => intro seen x h; simp [dedupFirst] at h
  | cons w ws ih =>
    intro seen x h
    simp only [dedupFirst] at h
    by_cases hw : w ∈ seen
    · rw [if_pos hw] at h
      exact ih seen x h
    · rw [if_neg hw] at h
      rcases List.mem_cons.mp h with h1 | h2
      · exact h1 ▸ hw
      · intro hx
        exact ih _ x h2 (List.mem_cons_of_mem _ hx)

lemma mem_dedupFirst_of_mem :
    ∀ (l seen : List String) (x : String), x ∈ l → x ∉ seen → x ∈ dedupFirst seen l := by
  intro l
  induction l with
  | nil => intro seen x h; simp at h
  | cons w ws ih =>
    intro seen x h hx
    simp only [dedupFirst]
    by_cases hw : w ∈ seen
    · rw [if_pos hw]
      rcases List.mem_cons.mp h with h1 | h2
      · exact absurd (h1 ▸ hw) hx
      · exact ih seen x h2 hx
    · rw [if_neg hw]
      by_cases hxw : x = w
      · exact hxw ▸ List.mem_cons_self _ _
      · rcases List.mem_cons.mp h with h1 | h2
        · exact absurd h1 hxw
        · exact List.mem_cons_of_mem _
            (ih _ x h2 (by simp [hxw, hx]))

lemma nodup_dedupFirst :
    ∀ (l seen : List String), (dedupFirst seen l).Nodup := by
  intro l
  induction l with
  | nil => intro seen; simp [dedupFirst]
  | cons w ws ih =>
    intro seen
    simp only [dedupFirst]
    by_cases hw : w ∈ seen
    · rw [if_pos hw]
      exact ih seen
    · rw [if_neg hw]
      refine List.nodup_cons.mpr ⟨?_, ih _⟩
      intro hmem
      exact not_mem_seen_of_mem_dedupFirst ws (w :: seen) w hmem (List.mem_cons_self _ _)

lemma mem_insertDesc (key : String → Nat) (y : String) :
    ∀ (l : List String) (x : String), x ∈ insertDesc key y l ↔ x = y ∨ x ∈ l := by
  intro l
  induction l with
  | nil => intro x; simp [insertDesc]
  | cons z zs ih =>
    intro x
    simp only [insertDesc]
    by_cases hz : key y < key z
    · rw [if_pos hz]
      simp only [List.mem_cons, ih]
      tauto
    · rw [if_neg hz]
      simp only [List.mem_cons]

lemma length_insertDesc (key : String → Nat) (y : String) :
    ∀ l : List String, (insertDesc key y l).length = l.length + 1 := by
  intro l
  induction l with
  | nil => rfl
  | cons z zs ih =>
    simp only [insertDesc]
    by_cases hz : key y < key z
    · rw [if_pos hz]
      simp [ih]
    · rw [if_neg hz]
      simp

lemma nodup_insertDesc (key : String → Nat) (y : String) :
    ∀ l : List String, l.Nodup → y ∉ l → (insertDesc key y l).Nodup := by
  intro l
  induction l with
  | nil => intro _ _; simp [insertDesc]
  | cons z zs ih =>
    intro hnd hy
    have hz_zs : z ∉ zs := (List.nodup_cons.mp hnd).1
    have hzs : zs.Nodup := (List.nodup_cons.mp hnd).2
    simp only [insertDesc]
    by_cases hz : key y < key z
    · rw [if_pos hz]
      refine List.nodup_cons.mpr ⟨?_, ih hzs (fun h => hy (List.mem_cons_of_mem _ h))⟩
      intro hmem
      rcases (mem_insertDesc key y zs z).mp hmem with h1 | h2
      · exact hy (h1 ▸ List.mem_cons_self _ _)
      · exact hz_zs h2
    · rw [if_neg hz]
      exact List.nodup_cons.mpr ⟨hy, hnd⟩

lemma pairwise_insertDesc (key : String → Nat) (y : String) :
    ∀ l : List String, l.Pairwise (fun a b => key b ≤ key a) →
      (insertDesc key y l).Pairwise (fun a b => key b ≤ key a) := by
  intro l
  induction l with
  | nil => intro _; simp [insertDesc]
  | cons z zs ih =>
    intro hpw
    have hz_zs : ∀ b ∈ zs, key b ≤ key z := (List.pairwise_cons.mp hpw).1
    have hzs := (List.pairwise_cons.mp hpw).2
    simp only [insertDesc]
    by_cases hz : key y < key z
    · rw [if_pos hz]
      refine List.pairwise_cons.mpr ⟨?_, ih hzs⟩
      intro b hb
      rcases (mem_insertDesc key y zs b).mp hb with h1 | h2
      · exact h1 ▸ Nat.le_of_lt hz
      · exact hz_zs b h2
    · rw [if_neg hz]
      refine List.pairwise_cons.mpr ⟨?_, hpw⟩
      intro b hb
      rcases List.mem_cons.mp hb with h1 | h2
      · exact h1 ▸ Nat.le_of_not_lt hz
      · exact Nat.le_trans (hz_zs b h2) (Nat.le_of_not_lt hz)

lemma mem_sortDescBy (key : String → Nat) :
    ∀ (l : List String) (x : String), x ∈ sortDescBy key l ↔ x ∈ l := by
  intro l
  induction l with
  | nil => intro x; simp [sortDescBy]
  | cons z zs ih =>
    intro x
    simp only [sortDescBy, mem_insertDesc, List.mem_cons, ih]

lemma length_sortDescBy (key : String → Nat) :
    ∀ l : List String, (sortDescBy key l).length = l.length := by
  intro l
  induction l with
  | nil => rfl
  | cons z zs ih => simp [sortDescBy, length_insertDesc, ih]

lemma nodup_sortDescBy (key : String → Nat) :
    ∀ l : List String, l.Nodup → (sortDescBy key l).Nodup := by
  intro l
  induction l with
  | nil => intro _; simp [sortDescBy]
  | cons z zs ih =>
    intro hnd
    have hz_zs : z ∉ zs := (List.nodup_cons.mp hnd).1
    exact nodup_insertDesc key z _ (ih (List.nodup_cons.mp hnd).2)
      (fun h => hz_zs ((mem_sortDescBy key zs z).mp h))

lemma pairwise_sortDescBy (key : String → Nat) :
    ∀ l : List String, (sortDescBy key l).Pairwise (fun a b => key b ≤ key a) := by
  intro l
  induction l with
  | nil => simp [sortDescBy]
  | cons z zs ih => exact pairwise_insertDesc key z _ ih

/-- Integer interval `[n, n + k)` as a list, in order. -/
def rangeFrom (n : Nat) : Nat → List Nat
  | 0 => []
  | k + 1 => n :: rangeFrom (n + 1) k

lemma length_rangeFrom : ∀ (k n : Nat), (rangeFrom n k).length = k := by
  intro k
  induction k with
  | zero => intro n; rfl
  | succ j ih => intro n; simp [rangeFrom, ih]

lemma mem_rangeFrom : ∀ (k n i : Nat), i ∈ rangeFrom n k ↔ n ≤ i ∧ i < n + k := by
  intro k
  induction k with
  | zero => intro n i; simp [rangeFrom]
  | succ j ih =>
    intro n i
    simp only [rangeFrom, List.mem_cons, ih]
    omega

lemma nodup_rangeFrom : ∀ (k n : Nat), (rangeFrom n k).Nodup := by
  intro k
  induction k with
  | zero => intro n; simp [rangeFrom]
  | succ j ih =>
    intro n
    refine List.nodup_cons.mpr ⟨?_, ih (n + 1)⟩
    rw [mem_rangeFrom]
    omega

lemma rangeFrom_concat : ∀ (k n : Nat), rangeFrom n (k + 1) = rangeFrom n k ++ [n + k] := by
  intro k
  induction k with
  | zero => intro n; simp [rangeFrom]
  | succ j ih =>
    intro n
    show n :: rangeFrom (n + 1) (j + 1) = (n :: rangeFrom (n + 1) j) ++ [n + (j + 1)]
    rw [ih (n + 1)]
    simp [Nat.add_assoc, Nat.add_comm 1 j]

lemma length_enumFromL {α : Type} : ∀ (l : List α) (n : Nat),
    (enumFromL n l).length = l.length := by
  intro l
  induction l with
  | nil => intro n; rfl
  | cons a l' ih => intro n; simp [enumFromL, ih]

lemma enumFromL_map_fst {α : Type} : ∀ (l : List α) (n : Nat),
    (enumFromL n l).map Prod.fst = rangeFrom n l.length := by
  intro l
  induction l with
  | nil => intro n; rfl
  | cons a l' ih => intro n; simp [enumFromL, rangeFrom, ih]

lemma mem_enumFromL {α : Type} : ∀ (l : List α) (n i : Nat) (a : α),
    (i, a) ∈ enumFromL n l → ∃ j, i = n + j ∧ l.get? j = some a := by
  intro l
  induction l with
  | nil => intro n i a h; simp [enumFromL] at h
  | cons b l' ih =>
    intro n i a h
    simp only [enumFromL, List.mem_cons] at h
    rcases h with h1 | h2
    · refine ⟨0, ?_, ?_⟩
      · simpa using congrArg Prod.fst h1
      · simpa using (congrArg Prod.snd h1).symm
    · obtain ⟨j, hj1, hj2⟩ := ih (n + 1) i a h2
      exact ⟨j + 1, by omega, by simpa using hj2⟩

lemma get?_mem_enumFromL {α : Type} : ∀ (l : List α) (n j : Nat) (a : α),
    l.get? j = some a → (n + j, a) ∈ enumFromL n l := by
  intro l
  induction l with
  | nil => intro n j a h; simp at h
  | cons b l' ih =>
    intro n j a h
    cases j with
    | zero =>
      simp only [List.get?, Option.some.injEq] at h
      simp [enumFromL, h]
    | succ j' =>
      simp only [List.get?] at h
      have := ih (n + 1) j' a h
      simp only [enumFromL, List.mem_cons]
      right
      have harith : n + (j' + 1) = (n + 1) + j' := by omega
      rw [harith]
      exact this

lemma dget_enumFromL {α : Type} [DecidableEq Nat] : ∀ (l : List α) (n j : Nat) (a : α),
    l.get? j = some a → dget (enumFromL n l) (n + j) = some a := by
  intro l
  induction l with
  | nil => intro n j a h; simp at h
  | cons b l' ih =>
    intro n j a h
    cases j with
    | zero =>
      simp only [List.get?, Option.some.injEq] at h
      simp [enumFromL, dget, h]
    | succ j' =>
      simp only [List.get?] at h
      have hne : ¬(n = n + (j' + 1)) := by omega
      simp only [enumFromL, dget, if_neg hne]
      have harith : n + (j' + 1) = (n + 1) + j' := by omega
      rw [harith]
      exact ih (n + 1) j' a h

lemma dget_enumFromL_none {α : Type} : ∀ (l : List α) (n k : Nat),
    n + l.length ≤ k → dget (enumFromL n l) k = none := by
  intro l
  induction l with
  | nil => intro n k _; rfl
  | cons b l' ih =>
    intro n k hk
    have hne : ¬(n = k) := by simp at hk; omega
    simp only [enumFromL, dget, if_neg hne]
    exact ih (n + 1) k (by simp at hk; omega)

lemma dget_swapEnum {α : Type} [DecidableEq α] :
    ∀ (l : List α) (n j : Nat) (a : α), l.Nodup → l.get? j = some a →
      dget ((enumFromL n l).map (fun p => (p.2, p.1))) a = some (n + j) := by
  intro l
  induction l with
  | nil => intro n j a _ h; simp at h
  | cons b l' ih =>
    intro n j a hnd h
    cases j with
    | zero =>
      simp only [List.get?, Option.some.injEq] at h
      simp [enumFromL, dget, h]
    | succ j' =>
      simp only [List.get?] at h
      have hmem : a ∈ l' := List.get?_mem h
      have hne : ¬(b = a) := by
        intro hba
        exact (List.nodup_cons.mp hnd).1 (hba ▸ hmem)
      simp only [enumFromL, List.map_cons, dget, if_neg hne]
      have harith : n + (j' + 1) = (n + 1) + j' := by omega
      rw [harith]
      exact ih (n + 1) j' a (List.nodup_cons.mp hnd).2 h

lemma dget_append_left {K V : Type} [DecidableEq K] :
    ∀ (d₁ d₂ : List (K × V)) (k : K) (v : V),
      dget d₁ k = some v → dget (d₁ ++ d₂) k = some v := by
  intro d₁
  induction d₁ with
  | nil => intro d₂ k v h; simp [dget] at h
  | cons kv rest ih =>
    intro d₂ k v h
    obtain ⟨k2, v2⟩ := kv
    simp only [dget] at h
    by_cases hk : k2 = k
    · rw [if_pos hk] at h
      simp [dget, hk, h]
    · rw [if_neg hk] at h
      simp only [List.cons_append, dget, if_neg hk]
      exact ih d₂ k v h

lemma dget_append_right {K V : Type} [DecidableEq K] :
    ∀ (d₁ d₂ : List (K × V)) (k : K),
      (∀ kv ∈ d₁, kv.1 ≠ k) → dget (d₁ ++ d₂) k = dget d₂ k := by
  intro d₁
  induction d₁ with
  | nil => intro d₂ k _; rfl
  | cons kv rest ih =>
    intro d₂ k h
    obtain ⟨k2, v2⟩ := kv
    have hk : k2 ≠ k := h (k2, v2) (List.mem_cons_self _ _)
    simp only [List.cons_append, dget, if_neg hk]
    exact ih d₂ k (fun kv' hkv' => h kv' (List.mem_cons_of_mem _ hkv'))

lemma dinsert_fresh {K V : Type} [DecidableEq K] (d : List (K × V)) (k : K) (v : V)
    (h : ∀ kv ∈ d, kv.1 ≠ k) : dinsert d k v = d ++ [(k, v)] := by
  simp only [dinsert]
  rw [if_neg]
  intro hany
  obtain ⟨kv, hmem, hkv⟩ := List.any_eq_true.mp hany
  exact h kv hmem (of_decide_eq_true hkv)

lemma dget_map_overwrite_ne {K V : Type} [DecidableEq K] (k k' : K) (v : V)
    (h : k' ≠ k) :
    ∀ d : List (K × V),
      dget (d.map (fun kv => if kv.1 = k then (k, v) else kv)) k' = dget d k' := by
  intro d
  induction d with
  | nil => rfl
  | cons kv rest ih =>
    obtain ⟨k2, v2⟩ := kv
    by_cases hk2 : k2 = k
    · simp only [List.map_cons]
      rw [if_pos hk2]
      simp only [dget]
      rw [if_neg (show ¬k = k' from fun hh => h hh.symm),
        if_neg (show ¬k2 = k' from fun hh => h (hk2 ▸ hh).symm)]
      exact ih
    · simp only [List.map_cons]
      rw [if_neg hk2]
      simp only [dget]
      by_cases hk2' : k2 = k'
      · rw [if_pos hk2', if_pos hk2']
      · rw [if_neg hk2', if_neg hk2']
        exact ih

lemma dget_append_single_ne {K V : Type} [DecidableEq K] (k k' : K) (v : V)
    (h : k' ≠ k) :
    ∀ d : List (K × V), dget (d ++ [(k, v)]) k' = dget d k' := by
  intro d
  induction d with
  | nil => simp [dget, if_neg (show ¬k = k' from fun hh => h hh.symm)]
  | cons kv rest ih =>
    obtain ⟨k2, v2⟩ := kv
    simp only [List.cons_append, dget]
    by_cases hk2' : k2 = k'
    · rw [if_pos hk2', if_pos hk2']
    · rw [if_neg hk2', if_neg hk2']
      exact ih

lemma dget_dinsert_ne {K V : Type} [DecidableEq K] (d : List (K × V)) (k k' : K) (v : V)
    (h : k' ≠ k) : dget (dinsert d k v) k' = dget d k' := by
  simp only [dinsert]
  by_cases hany : d.any (fun kv => decide (kv.1 = k)) = true
  · rw [if_pos hany]
    exact dget_map_overwrite_ne k k' v h d
  · rw [if_neg hany]
    exact dget_append_single_ne k k' v h d

lemma dget_map_overwrite_self {K V : Type} [DecidableEq K] (k : K) (v : V) :
    ∀ d : List (K × V), d.any (fun kv => decide (kv.1 = k)) = true →
      dget (d.map (fun kv => if kv.1 = k then (k, v) else kv)) k = some v := by
  intro d
  induction d with
  | nil => intro h; simp at h
  | cons kv rest ih =>
    intro h
    obtain ⟨k2, v2⟩ := kv
    by_cases hk2 : k2 = k
    · simp only [List.map_cons]
      rw [if_pos hk2]
      simp [dget]
    · simp only [List.map_cons]
      rw [if_neg hk2]
      simp only [dget, if_neg hk2]
      apply ih
      simp only [List.any_cons, Bool.or_eq_true] at h
      rcases h with h1 | h2
      · exact absurd (of_decide_eq_true h1) hk2
      · exact h2

/-- Reading back the key just assigned by `d[k] = v` yields `v`, whether the
assignment overwrote an existing entry or appended a fresh one. -/
lemma dget_dinsert_self {K V : Type} [DecidableEq K] (d : List (K × V)) (k : K) (v : V) :
    dget (dinsert d k v) k = some v := by
  simp only [dinsert]
  by_cases hany : d.any (fun kv => decide (kv.1 = k)) = true
  · rw [if_pos hany]
    exact dget_map_overwrite_self k v d hany
  · rw [if_neg hany]
    have hkeys : ∀ kv ∈ d, kv.1 ≠ k := by
      intro kv hkv he
      exact hany (List.any_eq_true.mpr ⟨kv, hkv, decide_eq_true he⟩)
    rw [dget_append_right _ _ _ hkeys]
    simp [dget]

lemma get?_some_lt {α : Type} :
    ∀ (l : List α) (j : Nat) (a : α), l.get? j = some a → j < l.length := by
  intro l
  induction l with
  | nil => intro j a h; simp at h
  | cons b l' ih =>
    intro j a h
    cases j with
    | zero => simp
    | succ j' =>
      simp only [List.get?] at h
      have := ih j' a h
      simp
      omega

lemma mem_sortedVocab_iff (words : List String) (w : String) :
    w ∈ sortedVocab words ↔ w ∈ dedupFirst [] words :=
  mem_sortDescBy _ _ w

lemma mem_words_of_mem_sortedVocab (words : List String) (w : String)
    (h : w ∈ sortedVocab words) : w ∈ words :=
  mem_of_mem_dedupFirst words [] w ((mem_sortedVocab_iff words w).mp h)

lemma mem_sortedVocab_of_mem_words (words : List String) (w : String)
    (h : w ∈ words) : w ∈ sortedVocab words :=
  (mem_sortedVocab_iff words w).mpr (mem_dedupFirst_of_mem words [] w h (by simp))

lemma nodup_sortedVocab (words : List String) : (sortedVocab words).Nodup :=
  nodup_sortDescBy _ _ (nodup_dedupFirst words [])

lemma swapEnum_keys (sv : List String) :
    ∀ kv ∈ (enumFromL 0 sv).map (fun p : Nat × String => (p.2, p.1)), kv.1 ∈ sv := by
  intro kv hkv
  obtain ⟨p, hp_mem, hp_eq⟩ := List.mem_map.mp hkv
  obtain ⟨i, a⟩ := p
  obtain ⟨j, _, hget⟩ := mem_enumFromL sv 0 i a hp_mem
  rw [← hp_eq]
  exact List.get?_mem hget

lemma enum_keys_lt (sv : List String) :
    ∀ kv ∈ enumFromL 0 sv, kv.1 < sv.length := by
  intro kv hkv
  obtain ⟨i, a⟩ := kv
  obtain ⟨j, hj0, hget⟩ := mem_enumFromL sv 0 i a hkv
  have := get?_some_lt sv j a hget
  simp only
  omega

/-- On inputs that do not contain the literal `'<PAD>'` token, both `<PAD>`
assignments in `create_lookup_tables` append fresh entries. -/
lemma create_lookup_tables_no_pad (words : List String) (hp : "<PAD>" ∉ words) :
    create_lookup_tables words
      = ((enumFromL 0 (sortedVocab words)).map (fun p => (p.2, p.1))
            ++ [("<PAD>", (sortedVocab words).length)],
          enumFromL 0 (sortedVocab words) ++ [((sortedVocab words).length, "<PAD>")]) := by
  have hpad_sv : "<PAD>" ∉ sortedVocab words :=
    fun h => hp (mem_words_of_mem_sortedVocab words _ h)
  rw [create_lookup_tables_def]
  have hlen1 : ((enumFromL 0 (sortedVocab words)).map
      (fun p : Nat × String => (p.2, p.1))).length = (sortedVocab words).length := by
    rw [List.length_map, length_enumFromL]
  have hlen2 : (enumFromL 0 (sortedVocab words)).length = (sortedVocab words).length :=
    length_enumFromL _ _
  have h1 : dinsert ((enumFromL 0 (sortedVocab words)).map (fun p => (p.2, p.1)))
      "<PAD>" ((enumFromL 0 (sortedVocab words)).map
        (fun p : Nat × String => (p.2, p.1))).length
      = (enumFromL 0 (sortedVocab words)).map (fun p => (p.2, p.1))
          ++ [("<PAD>", ((enumFromL 0 (sortedVocab words)).map
            (fun p : Nat × String => (p.2, p.1))).length)] :=
    dinsert_fresh _ _ _
      (fun kv hkv he => hpad_sv (he ▸ swapEnum_keys (sortedVocab words) kv hkv))
  have h2 : dinsert (enumFromL 0 (sortedVocab words))
      (enumFromL 0 (sortedVocab words)).length "<PAD>"
      = enumFromL 0 (sortedVocab words)
          ++ [((enumFromL 0 (sortedVocab words)).length, "<PAD>")] :=
    dinsert_fresh _ _ _
      (fun kv hkv he => by
        have hlt := enum_keys_lt (sortedVocab words) kv hkv
        rw [he, hlen2] at hlt
        exact Nat.lt_irrefl _ hlt)
  rw [h1, h2, hlen1, hlen2]

/-- The two lookup tables are exact mutual inverses, entry by entry: every
`(w, i)` of `word_to_index` satisfies `index_to_word[i] = w`, and every
`(i, w)` of `index_to_word` satisfies `word_to_index[w] = i`. -/
def mutualInverses (v2i : List (String × Nat)) (i2v : List (Nat × String)) : Prop :=
  (∀ e ∈ v2i, dget i2v e.2 = some e.1) ∧ (∀ e ∈ i2v, dget v2i e.2 = some e.1)

instance (v2i : List (String × Nat)) (i2v : List (Nat × String)) :
    Decidable (mutualInverses v2i i2v) := by
  unfold mutualInverses
  infer_instance

/-- C4 counterexample: on the input `["<PAD>"]` the two mappings returned by
`create_lookup_tables` are not mutual inverses — `index_to_word` maps `0` to
`'<PAD>'` but `word_to_index` maps `'<PAD>'` back to `1`. -/
theorem create_lookup_tables_pad_not_inverse :
    ¬mutualInverses (create_lookup_tables ["<PAD>"]).1
        (create_lookup_tables ["<PAD>"]).2 := by
  decide

/-- C4 amended: if the input does not contain the literal `'<PAD>'` token, the
two mappings returned by `create_lookup_tables` are exact mutual inverses. -/
theorem create_lookup_tables_mutual_inverses (words : List String)
    (hp : "<PAD>" ∉ words) :
    mutualInverses (create_lookup_tables words).1 (create_lookup_tables words).2 := by
  rw [create_lookup_tables_no_pad words hp]
  have hpad_sv : "<PAD>" ∉ sortedVocab words :=
    fun h => hp (mem_words_of_mem_sortedVocab words _ h)
  have hnd : (sortedVocab words).Nodup := nodup_sortedVocab words
  constructor
  · intro e he
    rcases List.mem_append.mp he with hin | hpad
    · obtain ⟨p, hp_mem, hp_eq⟩ := List.mem_map.mp hin
      obtain ⟨i, a⟩ := p
      obtain ⟨j, hj0, hget⟩ := mem_enumFromL _ 0 i a hp_mem
      rw [← hp_eq]
      apply dget_append_left
      simp only
      rw [hj0, show (0 : Nat) + j = j from Nat.zero_add j,
        show j = 0 + j from (Nat.zero_add j).symm]
      exact dget_enumFromL _ 0 j a hget
    · have he' : e = ("<PAD>", (sortedVocab words).length) := by simpa using hpad
      rw [he']
      rw [dget_append_right _ _ _ (fun kv hkv he2 => by
        have := enum_keys_lt (sortedVocab words) kv hkv
        rw [he2] at this
        exact Nat.lt_irrefl _ this)]
      simp [dget]
  · intro e he
    rcases List.mem_append.mp he with hin | hpad
    · obtain ⟨i, a⟩ := e
      obtain ⟨j, hj0, hget⟩ := mem_enumFromL _ 0 i a hin
      have hane : a ≠ "<PAD>" := fun h => hpad_sv (h ▸ List.get?_mem hget)
      apply dget_append_left
      simp only
      rw [hj0]
      exact dget_swapEnum _ 0 j a hnd hget
    · have he' : e = ((sortedVocab words).length, "<PAD>") := by simpa using hpad
      rw [he']
      rw [dget_append_right _ _ _ (fun kv hkv he2 => by
        have hmem := swapEnum_keys (sortedVocab words) kv hkv
        rw [he2] at hmem
        exact hpad_sv hmem)]
      simp [dget]

/-- Witness for C4 at the concrete input `["hello", "world", "hello"]`. -/
theorem create_lookup_tables_mutual_inverses_witness :
    "<PAD>" ∉ ["hello", "world", "hello"] ∧
      mutualInverses (create_lookup_tables ["hello", "world", "hello"]).1
        (create_lookup_tables ["hello", "world", "hello"]).2 :=
  ⟨by decide, create_lookup_tables_mutual_inverses _ (by decide)⟩

/-- The index-set property claimed for `create_lookup_tables`: writing `N` for
the number of distinct input tokens, the indices on both sides form exactly
`{0, …, N}` with no duplicates and no gaps, and `'<PAD>'` sits exactly at the
highest index `N` on both sides. -/
def vocabIndexProp (words : List String) : Prop :=
  ((create_lookup_tables words).1.map Prod.snd).length = (dedupFirst [] words).length + 1 ∧
    ((create_lookup_tables words).1.map Prod.snd).Nodup ∧
    (∀ i ∈ rangeFrom 0 ((dedupFirst [] words).length + 1),
      i ∈ (create_lookup_tables words).1.map Prod.snd) ∧
    ((create_lookup_tables words).2.map Prod.fst).length = (dedupFirst [] words).length + 1 ∧
    ((create_lookup_tables words).2.map Prod.fst).Nodup ∧
    (∀ i ∈ rangeFrom 0 ((dedupFirst [] words).length + 1),
      i ∈ (create_lookup_tables words).2.map Prod.fst) ∧
    dget (create_lookup_tables words).1 "<PAD>" = some (dedupFirst [] words).length ∧
    dget (create_lookup_tables words).2 (dedupFirst [] words).length = some "<PAD>" ∧
    (∀ e ∈ (create_lookup_tables words).2, e.2 = "<PAD>" → e.1 = (dedupFirst [] words).length) ∧
    (∀ e ∈ (create_lookup_tables words).1, e.1 = "<PAD>" → e.2 = (dedupFirst [] words).length)

instance (words : List String) : Decidable (vocabIndexProp words) := by
  unfold vocabIndexProp
  infer_instance

/-- C5 counterexample: the input `["<PAD>", "a"]` has `N = 2` distinct tokens,
but `word_to_index` ends up with value set `{1, 2}` — index `0` is lost, so the
index set has a gap (and `'<PAD>'` also sits at index `0` of `index_to_word`). -/
theorem create_lookup_tables_index_prop_fails_on_pad :
    ¬vocabIndexProp ["<PAD>", "a"] := by
  decide

/-- C5 amended: for every non-empty input that does not contain the literal
`'<PAD>'` token, the indices form exactly `{0, …, N}` on both sides, without
duplicates or gaps, and `'<PAD>'` sits exactly at the highest index `N`. -/
theorem create_lookup_tables_dense_pad_highest (words : List String)
    (_hne : words ≠ []) (hp : "<PAD>" ∉ words) : vocabIndexProp words := by
  have hpad_sv : "<PAD>" ∉ sortedVocab words :=
    fun h => hp (mem_words_of_mem_sortedVocab words _ h)
  have hsvlen : (sortedVocab words).length = (dedupFirst [] words).length :=
    length_sortDescBy _ _
  have hkeys1 : ∀ kv ∈ (enumFromL 0 (sortedVocab words)).map
      (fun p : Nat × String => (p.2, p.1)), kv.1 ≠ "<PAD>" :=
    fun kv hkv he => hpad_sv (he ▸ swapEnum_keys (sortedVocab words) kv hkv)
  have hkeys2 : ∀ kv ∈ enumFromL 0 (sortedVocab words),
      kv.1 ≠ (sortedVocab words).length :=
    fun kv hkv he => by
      have := enum_keys_lt (sortedVocab words) kv hkv
      rw [he] at this
      exact Nat.lt_irrefl _ this
  have hv : ((create_lookup_tables words).1.map Prod.snd)
      = rangeFrom 0 ((dedupFirst [] words).length + 1) := by
    rw [create_lookup_tables_no_pad words hp]
    show ((enumFromL 0 (sortedVocab words)).map (fun p => (p.2, p.1))
        ++ [("<PAD>", (sortedVocab words).length)]).map Prod.snd = _
    rw [List.map_append, List.map_map]
    have hmm : ((enumFromL 0 (sortedVocab words)).map
        (Prod.snd ∘ fun p : Nat × String => (p.2, p.1)))
        = (enumFromL 0 (sortedVocab words)).map Prod.fst := by
      apply List.map_congr_left
      intro p _
      rfl
    rw [hmm, enumFromL_map_fst, hsvlen]
    have := rangeFrom_concat (dedupFirst [] words).length 0
    rw [this]
    simp [hsvlen]
  have hk : ((create_lookup_tables words).2.map Prod.fst)
      = rangeFrom 0 ((dedupFirst [] words).length + 1) := by
    rw [create_lookup_tables_no_pad words hp]
    show ((enumFromL 0 (sortedVocab words))
        ++ [((sortedVocab words).length, "<PAD>")]).map Prod.fst = _
    rw [List.map_append, enumFromL_map_fst, hsvlen]
    have := rangeFrom_concat (dedupFirst [] words).length 0
    rw [this]
    simp [hsvlen]
  refine ⟨?_, ?_, ?_, ?_, ?_, ?_, ?_, ?_, ?_, ?_⟩
  · rw [hv, length_rangeFrom]
  · rw [hv]
    exact nodup_rangeFrom _ _
  · rw [hv]
    exact fun i hi => hi
  · rw [hk, length_rangeFrom]
  · rw [hk]
    exact nodup_rangeFrom _ _
  · rw [hk]
    exact fun i hi => hi
  · rw [create_lookup_tables_no_pad words hp]
    show dget ((enumFromL 0 (sortedVocab words)).map (fun p => (p.2, p.1))
        ++ [("<PAD>", (sortedVocab words).length)]) "<PAD>" = _
    rw [dget_append_right _ _ _ hkeys1]
    simp [dget, hsvlen]
  · rw [create_lookup_tables_no_pad words hp]
    show dget ((enumFromL 0 (sortedVocab words))
        ++ [((sortedVocab words).length, "<PAD>")]) (dedupFirst [] words).length = _
    rw [← hsvlen, dget_append_right _ _ _ hkeys2]
    simp [dget]
  · rw [create_lookup_tables_no_pad words hp]
    intro e he hpe
    rcases List.mem_append.mp he with hin | hpad
    · obtain ⟨i, a⟩ := e
      obtain ⟨j, _, hget⟩ := mem_enumFromL _ 0 i a hin
      simp only at hpe
      exact absurd (hpe ▸ List.get?_mem hget) hpad_sv
    · have he' : e = ((sortedVocab words).length, "<PAD>") := by simpa using hpad
      rw [he']
      simp [hsvlen]
  · rw [create_lookup_tables_no_pad words hp]
    intro e he hpe
    rcases List.mem_append.mp he with hin | hpad
    · have := swapEnum_keys (sortedVocab words) e hin
      rw [hpe] at this
      exact absurd this hpad_sv
    · have he' : e = ("<PAD>", (sortedVocab words).length) := by simpa using hpad
      rw [he']
      simp [hsvlen]

/-- Witness for C5 at the concrete input `["a", "b", "a"]`. -/
theorem create_lookup_tables_dense_pad_highest_witness :
    (["a", "b", "a"] : List String) ≠ [] ∧ "<PAD>" ∉ ["a", "b", "a"] ∧
      vocabIndexProp ["a", "b", "a"] :=
  ⟨by decide, by decide, create_lookup_tables_dense_pad_highest _ (by decide) (by decide)⟩

lemma get?_of_mem_own {α : Type} :
    ∀ (l : List α) (a : α), a ∈ l → ∃ j, l.get? j = some a := by
  intro l
  induction l with
  | nil => intro a h; simp at h
  | cons b l' ih =>
    intro a h
    rcases List.mem_cons.mp h with h1 | h2
    · exact ⟨0, by simp [h1]⟩
    · obtain ⟨j, hj⟩ := ih a h2
      exact ⟨j + 1, by simpa using hj⟩

lemma pairwise_sortedVocab (words : List String) :
    (sortedVocab words).Pairwise (fun a b => countL b words ≤ countL a words) :=
  pairwise_sortDescBy (fun w => countL w words) (dedupFirst [] words)

/-- C7 counterexample: in `["<PAD>", "<PAD>", "cat"]` the token `'<PAD>'`
occurs twice and `"cat"` once, yet `'<PAD>'` receives the strictly higher
index `2` (the final `<PAD>` assignment overwrites its frequency rank). -/
theorem create_lookup_tables_freq_order_fails_on_pad :
    countL "cat" ["<PAD>", "<PAD>", "cat"] < countL "<PAD>" ["<PAD>", "<PAD>", "cat"] ∧
      dget (create_lookup_tables ["<PAD>", "<PAD>", "cat"]).1 "<PAD>" = some 2 ∧
      dget (create_lookup_tables ["<PAD>", "<PAD>", "cat"]).1 "cat" = some 1 ∧
      ¬(2 : Nat) < 1 := by
  decide

/-- C7 amended: for any two input words `w1` and `w2` with `w1` not the
literal `'<PAD>'` token, a strictly higher occurrence count for `w1` gives it a
strictly lower index (`w2` may be `'<PAD>'`: the final `<PAD>` assignment
always places it at the maximum index). -/
theorem create_lookup_tables_freq_order (words : List String) (w1 w2 : String)
    (h1 : w1 ∈ words) (h2 : w2 ∈ words) (hp1 : w1 ≠ "<PAD>")
    (hc : countL w2 words < countL w1 words) :
    ∃ i1 i2, dget (create_lookup_tables words).1 w1 = some i1 ∧
      dget (create_lookup_tables words).1 w2 = some i2 ∧ i1 < i2 := by
  have hnd : (sortedVocab words).Nodup := nodup_sortedVocab words
  obtain ⟨j1, hg1⟩ := get?_of_mem_own _ w1 (mem_sortedVocab_of_mem_words words w1 h1)
  have hlt1 : j1 < (sortedVocab words).length := get?_some_lt _ j1 w1 hg1
  have hd1 : dget (create_lookup_tables words).1 w1 = some j1 := by
    rw [create_lookup_tables_def]
    show dget (dinsert _ "<PAD>" _) w1 = some j1
    rw [dget_dinsert_ne _ _ _ _ hp1]
    have := dget_swapEnum (sortedVocab words) 0 j1 w1 hnd hg1
    simpa using this
  by_cases hp2 : w2 = "<PAD>"
  · refine ⟨j1, (sortedVocab words).length, hd1, ?_, hlt1⟩
    rw [hp2, create_lookup_tables_def]
    show dget (dinsert ((enumFromL 0 (sortedVocab words)).map (fun p => (p.2, p.1)))
        "<PAD>" ((enumFromL 0 (sortedVocab words)).map
          (fun p : Nat × String => (p.2, p.1))).length) "<PAD>"
        = some (sortedVocab words).length
    rw [dget_dinsert_self]
    congr 1
    rw [List.length_map, length_enumFromL]
  · obtain ⟨j2, hg2⟩ := get?_of_mem_own _ w2 (mem_sortedVocab_of_mem_words words w2 h2)
    have hlt2 : j2 < (sortedVocab words).length := get?_some_lt _ j2 w2 hg2
    have hd2 : dget (create_lookup_tables words).1 w2 = some j2 := by
      rw [create_lookup_tables_def]
      show dget (dinsert _ "<PAD>" _) w2 = some j2
      rw [dget_dinsert_ne _ _ _ _ hp2]
      have := dget_swapEnum (sortedVocab words) 0 j2 w2 hnd hg2
      simpa using this
    refine ⟨j1, j2, hd1, hd2, ?_⟩
    rcases Nat.lt_or_ge j1 j2 with h | h
    · exact h
    · exfalso
      rcases Nat.eq_or_lt_of_le h with heq | hlt
      · rw [heq] at hg2
        rw [hg1] at hg2
        have : w1 = w2 := by injection hg2
        rw [this] at hc
        exact Nat.lt_irrefl _ hc
      · have hpw := pairwise_sortedVocab words
        rw [List.pairwise_iff_get] at hpw
        have := hpw ⟨j2, hlt2⟩ ⟨j1, hlt1⟩ hlt
        have hw1 : (sortedVocab words).get ⟨j1, hlt1⟩ = w1 := by
          have := List.get?_eq_get hlt1
          rw [hg1] at this
          injection this.symm
        have hw2 : (sortedVocab words).get ⟨j2, hlt2⟩ = w2 := by
          have := List.get?_eq_get hlt2
          rw [hg2] at this
          injection this.symm
        rw [hw1, hw2] at this
        omega

/-- Witness for C7 at the input where `"a"` occurs five times and `"cat"`
twice. -/
theorem create_lookup_tables_freq_order_witness :
    ∃ i1 i2,
      dget (create_lookup_tables ["a", "a", "a", "a", "a", "cat", "cat"]).1 "a" = some i1 ∧
        dget (create_lookup_tables ["a", "a", "a", "a", "a", "cat", "cat"]).1 "cat" = some i2 ∧
        i1 < i2 :=
  create_lookup_tables_freq_order _ "a" "cat" (by decide) (by decide) (by decide)
    (by decide)

/-- C8: on the empty token list `create_lookup_tables` succeeds and returns the
degenerate vocabulary with only the `'<PAD>'` entry at index `0` on both
sides. -/
theorem create_lookup_tables_empty :
    create_lookup_tables [] = ([("<PAD>", 0)], [(0, "<PAD>")]) := by
  decide

/-! The caption-corpus loader `load_image_captions_from_json` from
`data_processing.py` (the JSON file read is external; the per-caption
processing loop is modelled from the source).  Python's `list.index` is
`pyIndex`, the in-place update `captions[j] = ...` is `List.set`, and the
negative-index read `caption_processed[-1]` on an empty string raises
`IndexError`, modelled as `none`. -/

/-- Whitespace in the sense of Python's `str.strip` / `str.split`. -/
def isSpace (c : Char) : Bool :=
  c == ' ' || c == '\t' || c == '\n' || c == '\r'

/-- Python `s.strip()`: drop whitespace from both ends. -/
def stripL (s : List Char) : List Char :=
  ((s.dropWhile isSpace).reverse.dropWhile isSpace).reverse

/-- Worker for `splitWs`, accumulating the current word reversed. -/
def splitWsAux : List Char → List Char → List (List Char)
  | [], acc => if acc = [] then [] else [acc.reverse]
  | c :: cs, acc =>
    if isSpace c then
      if acc = [] then splitWsAux cs [] else acc.reverse :: splitWsAux cs []
    else
      splitWsAux cs (c :: acc)

/-- Python `s.split()`: the maximal whitespace-free runs, no empty pieces. -/
def splitWs (s : List Char) : List (List Char) :=
  splitWsAux s []

/-- Python `" ".join(ws)`. -/
def joinWords : List (List Char) → List Char
  | [] => []
  | [w] => w
  | w :: ws => w ++ ' ' :: joinWords ws

/-- Python `caption.lower().replace('"', '').replace("'", '')`. -/
def quoteStripLower (caption : List Char) : List Char :=
  ((caption.map Char.toLower).filter (fun ch => !(ch == '"'))).filter
    (fun ch => !(ch == '\''))

/-- The per-caption processing body of the loader's loop: lowercase, strip
quotes, drop a trailing period, tokenize, trim, collapse whitespace and wrap in
sentence markers.  Reading `caption_processed[-1]` on the empty string raises
`IndexError`, hence `none`. -/
def process_caption (caption : List Char) : Option (List Char) :=
  let c1 := quoteStripLower caption
  if c1 = [] then none
  else
    let c2 := if c1.getLast? = some '.' then c1.dropLast else c1
    let c3 := stripL (tokenize c2)
    let c4 := joinWords (splitWs c3)
    some ("<s> ".toList ++ c4 ++ " </s>".toList)

/-- Python `list.index(x)` for an element present in the list (the absent case,
where Python raises `ValueError`, is never reached by the loader). -/
def pyIndex (x : List Char) : List (List Char) → Nat
  | [] => 0
  | y :: ys => if y = x then 0 else pyIndex x ys + 1

/-- The caption loop of the loader: at step `i` process `captions[i]`, extend
the word list, and write the processed caption back over the first occurrence
of the original one (`captions[captions.index(caption)] = caption_processed`).
The fuel starts at the (invariant) list length, making the recursion
structural. -/
def captionsLoop :
    Nat → Nat → List (List Char) → List (List Char) →
      Option (List (List Char) × List (List Char))
  | 0, _, state, wl => some (state, wl)
  | fuel + 1, i, state, wl =>
    match state.get? i with
    | none => some (state, wl)
    | some caption =>
      match process_caption caption with
      | none => none
      | some processed =>
        captionsLoop fuel (i + 1) (state.set (pyIndex caption state) processed)
          (wl ++ splitWs processed)

/-- Process one image's caption list in place, accumulating its word list. -/
def processImageCaptions (caps : List (List Char)) :
    Option (List (List Char) × List (List Char)) :=
  captionsLoop caps.length 0 caps []

/-- Source function `load_image_captions_from_json`, after the JSON parse: process every
caption of every image in order, mutating the captions in place and flattening
all tokens into one word list; any `IndexError` aborts the whole call. -/
def load_image_captions_from_json :
    List (String × List (List Char)) →
      Option (List (String × List (List Char)) × List (List Char))
  | [] => some ([], [])
  | (img, caps) :: rest =>
    match processImageCaptions caps with
    | none => none
    | some (caps2, wl) =>
      match load_image_captions_from_json rest with
      | none => none
      | some (rest2, wl2) => some ((img, caps2) :: rest2, wl ++ wl2)

/-- C6: the loader on `{"img1": ["A cat.", "A DOG!"]}` returns the mutated
mapping and the nine flattened tokens, in processing order. -/
theorem load_image_captions_example :
    load_image_captions_from_json [("img1", ["A cat.".toList, "A DOG!".toList])]
      = some ([("img1", ["<s> a cat </s>".toList,
            "<s> a dog <EXCLAMATION_MARK> </s>".toList])],
          ["<s>".toList, "a".toList, "cat".toList, "</s>".toList,
            "<s>".toList, "a".toList, "dog".toList,
            "<EXCLAMATION_MARK>".toList, "</s>".toList]) := by
  decide

lemma process_caption_none_of_blank (c : List Char) (h : quoteStripLower c = []) :
    process_caption c = none := by
  simp [process_caption, h]

lemma get?_pyIndex : ∀ (l : List (List Char)) (x : List Char),
    x ∈ l → l.get? (pyIndex x l) = some x := by
  intro l
  induction l with
  | nil => intro x h; simp at h
  | cons y ys ih =>
    intro x h
    by_cases hyx : y = x
    · simp [pyIndex, hyx]
    · rcases List.mem_cons.mp h with h1 | h2
      · exact absurd h1.symm hyx
      · simp only [pyIndex, if_neg hyx]
        simpa using ih x h2

lemma get?_set_ne_own {α : Type} : ∀ (l : List α) (i j : Nat) (a : α),
    i ≠ j → (l.set i a).get? j = l.get? j := by
  intro l
  induction l with
  | nil => intro i j a _; simp
  | cons b l' ih =>
    intro i j a hij
    cases i with
    | zero =>
      cases j with
      | zero => exact absurd rfl hij
      | succ j' => simp [List.set]
    | succ i' =>
      cases j with
      | zero => simp [List.set]
      | succ j' =>
        simp only [List.set, List.get?]
        exact ih i' j' a (fun h => hij (by rw [h]))

/-- If some caption at a position `≥ i` processes to an `IndexError`, the
caption loop starting at `i` aborts: earlier iterations can only overwrite
slots holding captions that process successfully. -/
lemma captionsLoop_none :
    ∀ (fuel i : Nat) (state wl : List (List Char)) (p : Nat) (bad : List Char),
      i ≤ p → state.length ≤ i + fuel → state.get? p = some bad →
      process_caption bad = none → captionsLoop fuel i state wl = none := by
  intro fuel
  induction fuel with
  | zero =>
    intro i state wl p bad hip hlen hget _
    have hplen : p < state.length := get?_some_lt state p bad hget
    omega
  | succ f ih =>
    intro i state wl p bad hip hlen hget hbad
    have hplen : p < state.length := get?_some_lt state p bad hget
    have hi : i < state.length := Nat.lt_of_le_of_lt hip hplen
    have hgeti : state.get? i = some (state.get ⟨i, hi⟩) := List.get?_eq_get hi
    show captionsLoop (f + 1) i state wl = none
    rw [show captionsLoop (f + 1) i state wl
        = match state.get? i with
          | none => some (state, wl)
          | some caption =>
            match process_caption caption with
            | none => none
            | some processed =>
              captionsLoop f (i + 1) (state.set (pyIndex caption state) processed)
                (wl ++ splitWs processed)
        from rfl]
    rw [hgeti]
    show (match process_caption (state.get ⟨i, hi⟩) with
      | none => none
      | some processed =>
        captionsLoop f (i + 1)
          (state.set (pyIndex (state.get ⟨i, hi⟩) state) processed)
          (wl ++ splitWs processed)) = none
    cases hproc : process_caption (state.get ⟨i, hi⟩) with
    | none => rfl
    | some processed =>
      have hip' : i ≠ p := by
        intro hipeq
        rw [← hipeq] at hget
        rw [hgeti] at hget
        have : state.get ⟨i, hi⟩ = bad := by injection hget
        rw [this] at hproc
        rw [hbad] at hproc
        exact Option.noConfusion hproc
      have hjp : pyIndex (state.get ⟨i, hi⟩) state ≠ p := by
        intro hjpeq
        have hmem : state.get ⟨i, hi⟩ ∈ state := List.get_mem state i hi
        have := get?_pyIndex state _ hmem
        rw [hjpeq, hget] at this
        have hbc : bad = state.get ⟨i, hi⟩ := by injection this
        rw [← hbc] at hproc
        rw [hbad] at hproc
        exact Option.noConfusion hproc
      apply ih (i + 1) _ _ p bad (by omega)
      · rw [List.length_set]
        omega
      · rw [get?_set_ne_own state _ p processed hjp]
        exact hget
      · exact hbad

/-- C10: if any image's caption list contains a caption that is empty — or
becomes empty after lowercasing and removing double and single quotes — the
loader aborts with the `IndexError` raised by the trailing-period test. -/
theorem load_none_of_blank_caption (dict : List (String × List (List Char)))
    (img : String) (caps : List (List Char)) (c : List Char)
    (hmem : (img, caps) ∈ dict) (hc : c ∈ caps)
    (hblank : quoteStripLower c = []) :
    load_image_captions_from_json dict = none := by
  induction dict with
  | nil => simp at hmem
  | cons entry rest ih =>
    obtain ⟨img0, caps0⟩ := entry
    show (match processImageCaptions caps0 with
      | none => none
      | some (caps2, wl) =>
        match load_image_captions_from_json rest with
        | none => none
        | some (rest2, wl2) => some ((img0, caps2) :: rest2, wl ++ wl2)) = none
    rcases List.mem_cons.mp hmem with hhead | htail
    · have hcaps : caps0 = caps := by
        have := congrArg Prod.snd hhead
        simpa using this.symm
      obtain ⟨p, hp⟩ := get?_of_mem_own caps c hc
      have : processImageCaptions caps0 = none := by
        rw [hcaps]
        exact captionsLoop_none caps.length 0 caps [] p c (Nat.zero_le p)
          (by omega) hp (process_caption_none_of_blank c hblank)
      rw [this]
    · cases hpic : processImageCaptions caps0 with
      | none => rfl
      | some pr =>
        obtain ⟨caps2, wl⟩ := pr
        rw [ih htail]

/-- Witness for C10: a caption consisting of a lone double quote aborts the
loader. -/
theorem load_none_of_blank_caption_witness :
    load_image_captions_from_json [("img1", [['"']])] = none :=
  load_none_of_blank_caption _ "img1" [['"']] ['"'] (by simp) (by simp) (by decide)

/-! The training and inference loops from `train_functions.py`.  Tensors are
modelled shape-faithfully as nested lists: a target batch is
`List (List Int)` of shape `(batch_size, max_len)`, `permute(1, 0)` is
`List.transpose`, `targets[:-1]` is `dropLast` on the sequence-major list and
`reshape` over the leading dimensions is `join`.  The model, the loss
function, the optimizer and the metric writer are external collaborators: the
loop's effects on the latter two are recorded in a `TrainLog`. -/

/-- Python `targets[:-1]` fed to the model: the sequence-major targets without the
final step. -/
def train_step_decoder_input (targets : List (List Int)) : List (List Int) :=
  targets.transpose.dropLast

/-- Python `targets.reshape(-1)` as computed by the source: the FULL sequence-major
target tensor flattened, not the without-first-step analog. -/
def train_step_targets_reshaped (targets : List (List Int)) : List Int :=
  targets.transpose.flatten

/-- Python `outputs.reshape(-1, outputs.shape[2])`: flatten the sequence and batch
dimensions of the score tensor. -/
def train_step_outputs_reshaped {S : Type} (outputs : List (List (List S))) :
    List (List S) :=
  outputs.flatten

/-- The externally observable effects of one `train_step` call. -/
structure TrainLog (L : Type) where
  optimizerSteps : Nat
  scalars : List (String × L × Nat)

/-- Source function `train_step` from `train_functions.py`: per batch, permute the targets to
sequence-major, run the model on the decoder input `targets[:-1]`, compute the
loss between the flattened outputs and the flattened full targets, then step
the optimizer once and record one `"Loss/train"` scalar keyed by the epoch. -/
def train_step {A S L : Type}
    (model : A → List (List Int) → List (List (List S)))
    (data : List (A × List (List Int)))
    (loss : List (List S) → List Int → L)
    (epoch : Nat) : TrainLog L :=
  data.foldl
    (fun log batch =>
      let outputs := model batch.1 (train_step_decoder_input batch.2)
      let loss_value := loss (train_step_outputs_reshaped outputs)
        (train_step_targets_reshaped batch.2)
      { optimizerSteps := log.optimizerSteps + 1,
        scalars := log.scalars ++ [("Loss/train", loss_value, epoch)] })
    ⟨0, []⟩

/-- Modelled from the spec: the model collaborator (its class is not part of
`src/`) is `model(image_tensor, target_prefix) -> score_sequence`, producing
one row of vocabulary scores per decoder-input step and per sample. -/
def specModel : Unit → List (List Int) → List (List (List Unit)) :=
  fun _ pre => pre.map (fun row => row.map (fun _ => [()]))

/-- C1: at a batch of one sample with sequence length 2, the flattened target
passed to the loss has 2 entries while the flattened model output (under the
spec's model contract) has 1 row — `batch_size * (max_len - 1) = 1` — so the
two sequences the loss receives do NOT have matching lengths: the source
flattens the full targets instead of `targets[1:]`. -/
theorem train_step_loss_shape_mismatch :
    (train_step_targets_reshaped [[1, 2]]).length = 2 ∧
      (train_step_outputs_reshaped
        (specModel () (train_step_decoder_input [[1, 2]]))).length = 1 ∧
      (train_step_targets_reshaped [[1, 2]]).length
        ≠ (train_step_outputs_reshaped
          (specModel () (train_step_decoder_input [[1, 2]]))).length := by
  decide

/-- C9: a single-batch loader produces exactly one optimizer step and exactly
one scalar entry, tagged `"Loss/train"` and keyed by the epoch. -/
theorem train_step_single_batch_effects {A S L : Type}
    (model : A → List (List Int) → List (List (List S)))
    (loss : List (List S) → List Int → L)
    (batch : A × List (List Int)) (epoch : Nat) :
    (train_step model [batch] loss epoch).optimizerSteps = 1 ∧
      (train_step model [batch] loss epoch).scalars.map (fun e => (e.1, e.2.2))
        = [("Loss/train", epoch)] := by
  exact ⟨rfl, rfl⟩

/-- The state of one `t_step` call: the local `predictions` accumulator built
by the loop, and the value the function returns to its caller. -/
structure TStepRun (C : Type) where
  predictions : List C
  ret : Option (List C)

/-- Source function `t_step` from `train_functions.py`: iterate the batches, generate captions
for the first sample of each batch only (`inputs[0].unsqueeze(0)`, modelled as
`batch.take 1`) and extend the local `predictions` list.  The function body
ends without a `return` statement, so the Python function returns `None`
(`ret := none`) and the accumulated predictions are discarded. -/
def t_step {I T C : Type} (genera_captions : List I → List C)
    (data : List (List I × T)) : TStepRun C :=
  { predictions :=
      data.foldl (fun acc batch => acc ++ genera_captions (batch.1.take 1)) [],
    ret := none }

/-- C2: over a loader of `K = 2` batches, with a generator producing one
caption per call, the loop accumulates the 2 captions — but `t_step` returns
`None`, not the promised sequence of `K` captions. -/
theorem t_step_missing_return :
    (t_step (fun b : List Nat => b) [([0], 0), ([1], 0)]).predictions.length = 2 ∧
      (t_step (fun b : List Nat => b) [([0], 0), ([1], 0)]).ret = none := by
  exact ⟨rfl, rfl⟩

end Captioning
